import Mathlib

/-!
Shallow embedding of the algorithmic core of the wsn-design-space-exploration
repository, together with theorems settling the frozen claims about it.

Embedded source files:
* `src/data/pareto_global.py` (identical ranking code also appears in
  `src/data/simulation/milp-mobile/pareto_analysis.py`): `dominates` and
  `fast_nondominated_sort`.
* `src/batch_runner/batch_runner.py`: the objective reductions `sum_all` and
  `sum_last_minus_first`.
* `src/batch_runner/lib/parse_json_pos_dat.py`: the trajectory synthesis
  pipeline of `generate_positions_from_json` (step budgeting, per-segment
  resampling, round-trip doubling, timeline merge).

Python float values are modelled as rationals (`ℚ`); the IEEE NaN sentinel
returned by the objective reductions is modelled as `Option.none`.
-/

/-- Objective vector of one candidate, the keys read by `dominates`
(`pareto_global.py` lines 24-37). -/
structure Objectives where
  latency : ℚ
  energy : ℚ
  throughput : ℚ
deriving DecidableEq, Repr

/-- Candidate record as built by the population loaders of
`pareto_global.py` (lines 88-128): an `id` key used for all dictionary
bookkeeping, metadata `origin` and `generation` (never read by the ranking
code), and the objective vector.  The `rank` key that the source assigns by
mutation is represented below by the index of the front a candidate lands in. -/
structure Candidate where
  id : ℕ
  origin : ℕ
  generation : ℤ
  objectives : Objectives
deriving DecidableEq, Repr

/-- Dominance relation of `pareto_global.py` lines 24-37: better or equal on
every objective (latency and energy minimized, throughput maximized) and
strictly better on at least one. -/
def dominates (a b : Objectives) : Bool :=
  (decide (a.latency ≤ b.latency) && decide (a.energy ≤ b.energy) &&
    decide (a.throughput ≥ b.throughput)) &&
  (decide (a.latency < b.latency) || decide (a.energy < b.energy) ||
    decide (a.throughput > b.throughput))

/-- Inner loop of `fast_nondominated_sort` (lines 56-63), `S[pid]` part: the
candidates `q` of the population, in population order, with `q["id"] ≠ pid`
that `p` dominates. -/
def innerS (population : List Candidate) (p : Candidate) : List Candidate :=
  population.filter (fun q =>
    decide (p.id ≠ q.id) && dominates p.objectives q.objectives)

/-- Inner loop of `fast_nondominated_sort` (lines 56-63), `n[pid]` part: the
number of candidates `q` with `q["id"] ≠ pid` for which the `elif` branch
fires, i.e. `p` does not dominate `q` and `q` dominates `p`. -/
def innerN (population : List Candidate) (p : Candidate) : ℕ :=
  (population.filter (fun q =>
    decide (p.id ≠ q.id) && !dominates p.objectives q.objectives &&
      dominates q.objectives p.objectives)).length

/-- State of the first pass of `fast_nondominated_sort`: the dictionaries `S`
and `n` (keyed by the candidates' `id` values, missing keys mapped to the
defaults `[]` and `0`) and the list `fronts[0]`. -/
structure SortState where
  S : ℕ → List Candidate
  n : ℕ → ℤ
  front0 : List Candidate

/-- One iteration of the outer `for p in population` loop of
`fast_nondominated_sort` (lines 51-67): store `S[pid]` and `n[pid]`
(overwriting any entry a previous same-id candidate stored) and append `p` to
`fronts[0]` when its freshly computed `n[pid]` is zero. -/
def phase1Step (population : List Candidate) (st : SortState) (p : Candidate) :
    SortState :=
  { S := Function.update st.S p.id (innerS population p)
    n := Function.update st.n p.id ((innerN population p : ℤ))
    front0 := if innerN population p = 0 then st.front0 ++ [p] else st.front0 }

/-- First pass of `fast_nondominated_sort` (lines 47-67). -/
def phase1 (population : List Candidate) : SortState :=
  population.foldl (phase1Step population) ⟨fun _ => [], fun _ => 0, []⟩

/-- Body of the innermost `for q in S[p["id"]]` loop (lines 73-77): decrement
`n[q["id"]]` and, when the decremented counter is exactly zero, append `q` to
`next_front`. -/
def processQ (st : (ℕ → ℤ) × List Candidate) (q : Candidate) :
    (ℕ → ℤ) × List Candidate :=
  let n' := Function.update st.1 q.id (st.1 q.id - 1)
  if st.1 q.id - 1 = 0 then (n', st.2 ++ [q]) else (n', st.2)

/-- One iteration of the `while fronts[i]` loop (lines 70-79): build
`next_front` from the current front, starting from `next_front = []`. -/
def processFront (S : ℕ → List Candidate) (n : ℕ → ℤ)
    (front : List Candidate) : (ℕ → ℤ) × List Candidate :=
  front.foldl (fun acc p => (S p.id).foldl processQ acc) (n, [])

/-- The `while fronts[i]` loop of `fast_nondominated_sort` (lines 69-81),
with explicit fuel standing in for the unbounded `while`.  Each iteration
emits the current (nonempty) front and recurses on `next_front`; the source's
`fronts[:-1]` drops exactly the final empty front, so the emitted fronts are
the returned value.  Fuel is sufficient whenever it exceeds the number of
nonempty fronts: front 0 plus at most one further front per counter that
reaches zero, each `id` key reaching zero at most once, gives at most
`population.length + 1` nonempty fronts. -/
def sortLoop (S : ℕ → List Candidate) :
    ℕ → (ℕ → ℤ) → List Candidate → List (List Candidate)
  | 0, _, _ => []
  | fuel + 1, n, front =>
    if front.isEmpty then []
    else
      let next := processFront S n front
      front :: sortLoop S fuel next.1 next.2

/-- Fast non-dominated sort of `pareto_global.py` lines 44-81 (the identical
function also appears in `pareto_analysis.py` lines 43-80): returns the list
of fronts; a candidate's rank, assigned exactly when it is placed in a front,
is the index of that front. -/
def fast_nondominated_sort (population : List Candidate) :
    List (List Candidate) :=
  let st := phase1 population
  sortLoop st.S (population.length + 2) st.n st.front0

/-- Raw table cell of the measurement CSV consumed by the objective
reductions in `batch_runner.py`: a numeric value, a non-numeric (unparseable)
value, or a missing/null entry.  `pd.to_numeric(·, errors="coerce")` turns
the latter two into NaN, modelled as `Option.none`. -/
inductive Cell
  | num (q : ℚ)
  | text
  | null
deriving DecidableEq, Repr

/-- Check that a cell is the missing/null entry (pandas treats only these as
null when picking a group's first/last value). -/
def Cell.isNull : Cell → Bool
  | .null => true
  | _ => false

/-- Coercion `pd.to_numeric(·, errors="coerce")` of one cell. -/
def toNumericCell : Cell → Option ℚ
  | .num q => some q
  | _ => none

/-- Reduction `sum_all` of `batch_runner.py` lines 103-107: NaN (`none`) when
the designated column is absent from the table, otherwise the sum of the
column's values after coercion, with NaN entries skipped
(`s.sum(skipna=True)`); the input is the designated column, `none` when it is
absent. -/
def sum_all (col : Option (List Cell)) : Option ℚ :=
  match col with
  | none => none
  | some cells => some ((cells.filterMap toNumericCell).sum)

/-- Row of the per-node measurement table as consumed by
`sum_last_minus_first`: the grouping key `node`, the ordering key
`root_time_now` and the designated counter column's cell. -/
structure MeasurementRow where
  node : ℕ
  root_time_now : ℚ
  value : Cell
deriving DecidableEq, Repr

/-- Lexicographic key order of `df.sort_values([node_col, time_col])`. -/
def rowLe (a b : MeasurementRow) : Bool :=
  decide (a.node < b.node) ||
    (decide (a.node = b.node) && decide (a.root_time_now ≤ b.root_time_now))

/-- Ordered insertion for `sortRows`. -/
def insertRow (r : MeasurementRow) :
    List MeasurementRow → List MeasurementRow
  | [] => [r]
  | s :: rest => if rowLe r s then r :: s :: rest else s :: insertRow r rest

/-- Sort of `df.sort_values([node_col, time_col])` (line 119); rows with
equal keys are returned in an order the pandas quicksort leaves unspecified,
here the stable one. -/
def sortRows : List MeasurementRow → List MeasurementRow
  | [] => []
  | r :: rest => insertRow r (sortRows rest)

/-- Value `g.first()` of one group after coercion: pandas takes the first
non-null raw value (NaN when the group is all null), then
`pd.to_numeric(·, errors="coerce")` is applied (line 122). -/
def groupFirst (cells : List Cell) : Option ℚ :=
  (cells.find? (fun c => !c.isNull)).bind toNumericCell

/-- Value `g.last()` of one group after coercion (line 123). -/
def groupLast (cells : List Cell) : Option ℚ :=
  (cells.reverse.find? (fun c => !c.isNull)).bind toNumericCell

/-- Per-node contribution `(end - start).clip(lower=0)` (line 125): NaN
(`none`) when either endpoint fails to coerce, otherwise the delta clamped to
zero from below.  NaN contributions are skipped by the final
`sum(skipna=True)`. -/
def nodeDelta (cells : List Cell) : Option ℚ :=
  match groupFirst cells, groupLast cells with
  | some s, some e => some (max (e - s) 0)
  | _, _ => none

/-- Reduction `sum_last_minus_first` of `batch_runner.py` lines 110-126: NaN
(`none`) when the designated counter column is absent, otherwise the sum over
the per-node groups of the sorted table of the clamped last-minus-first delta,
skipping NaN deltas. -/
def sum_last_minus_first (hasValueCol : Bool) (rows : List MeasurementRow) :
    Option ℚ :=
  if hasValueCol then
    let sorted := sortRows rows
    let keys := (sorted.map (·.node)).dedup
    some ((keys.map (fun k =>
      (nodeDelta ((sorted.filter (fun r => r.node == k)).map (·.value))).getD
        0)).sum)
  else none

/-- Conversion `int(...)` of Python: truncation toward zero. -/
def pyInt (q : ℚ) : ℤ := if 0 ≤ q then ⌊q⌋ else -⌊-q⌋

/-- Sample grid `np.linspace(0, 1, num)`: `num` uniformly spaced points from
0 to 1 (for `num = 1` the single point 0, for `num = 0` no points). -/
def linspace01 : ℕ → List ℚ
  | 0 => []
  | 1 => [0]
  | n + 2 => (List.range (n + 2)).map (fun i : ℕ => (i : ℚ) / ((n + 1 : ℕ) : ℚ))

/-- Interpolation `np.interp` at one query point over the polyline `pts`
(whose first components are strictly increasing in every use here, both being
`linspace01` grids): clamped at the ends, piecewise linear inside. -/
def interpPts (x : ℚ) : List (ℚ × ℚ) → ℚ
  | [] => 0
  | [p] => p.2
  | p :: q :: rest =>
    if x ≤ p.1 then p.2
    else if x ≤ q.1 then p.2 + (q.2 - p.2) * (x - p.1) / (q.1 - p.1)
    else interpPts x (q :: rest)

/-- Resampling of one coordinate array (lines 59-61 of
`parse_json_pos_dat.py`): `np.interp(np.linspace(0,1,seg_steps),
np.linspace(0,1,len(vals)), vals)`. -/
def resample (vals : List ℚ) (steps : ℕ) : List ℚ :=
  (linspace01 steps).map (fun t => interpPts t ((linspace01 vals.length).zip vals))

/-- Mobile-node input to the synthesis pipeline after expression evaluation
(lines 40-47 of `parse_json_pos_dat.py`): per segment the sample arrays
produced by `evaluate_function` on the 100-point grid, the segment arc
lengths of line 47 (sums of Euclidean distances, which involve `np.sqrt` and
are in general irrational, so they enter the model as data; the concrete
inputs below use horizontal segments, whose arc length is rational and
supplied exactly), the node's speed, time step and round-trip flag. -/
structure MobileMote where
  segSamples : List (List ℚ × List ℚ)
  segDists : List ℚ
  speed : ℚ
  timeStep : ℚ
  isRoundTrip : Bool
deriving DecidableEq, Repr

/-- Total path arc length `total_distance` (line 49). -/
def totalDistance (m : MobileMote) : ℚ := m.segDists.sum

/-- Step budget `total_steps = max(1, int(total_duration / time_step))` with
`total_duration = total_distance / speed` (lines 50-51). -/
def totalSteps (m : MobileMote) : ℕ :=
  max 1 (pyInt (totalDistance m / m.speed / m.timeStep)).toNat

/-- Per-segment allocation (lines 57-58): `proportion = seg_dist /
total_distance if total_distance > 0 else 1`, then
`seg_steps = max(1, int(proportion * total_steps))`. -/
def segSteps (segDist totalDist : ℚ) (steps : ℕ) : ℕ :=
  let proportion : ℚ := if 0 < totalDist then segDist / totalDist else 1
  max 1 (pyInt (proportion * (steps : ℚ))).toNat

/-- Forward trajectory `x_full, y_full` (lines 55-66): per-segment resampling
to the allocated step count, concatenated in path order. -/
def forwardXY (m : MobileMote) : List ℚ × List ℚ :=
  let steps := totalSteps m
  let tot := totalDistance m
  ((m.segSamples.zip m.segDists).flatMap
      (fun p => resample p.1.1 (segSteps p.2 tot steps)),
    (m.segSamples.zip m.segDists).flatMap
      (fun p => resample p.1.2 (segSteps p.2 tot steps)))

/-- Round-trip doubling (lines 68-70): when the flag is set, the forward
arrays are extended with their own reverses. -/
def trajXY (m : MobileMote) : List ℚ × List ℚ :=
  let f := forwardXY m
  if m.isRoundTrip then (f.1 ++ f.1.reverse, f.2 ++ f.2.reverse) else f

/-- Output line `"<mote_id> <time> <x> <y>"` of the mobile section (line 79),
before fixed-point formatting. -/
structure PosSample where
  moteId : ℕ
  time : ℚ
  x : ℚ
  y : ℚ
deriving DecidableEq, Repr

/-- Entry of the `mobile_trajectories` list (line 73). -/
structure Traj where
  moteId : ℕ
  xFull : List ℚ
  yFull : List ℚ
  timeStep : ℚ
deriving DecidableEq, Repr

/-- Construction of `mobile_trajectories`: mote indices count up from
`len(fixed_positions)` (lines 25, 72-74). -/
def buildTrajectories : ℕ → List MobileMote → List Traj
  | _, [] => []
  | idx, m :: ms =>
    ⟨idx, (trajXY m).1, (trajXY m).2, m.timeStep⟩ :: buildTrajectories (idx + 1) ms

/-- Running maximum `max_steps = max(max_steps, total_steps)` over the mobile
nodes (lines 26, 52). -/
def maxStepsOf (motes : List MobileMote) : ℕ :=
  motes.foldl (fun acc m => max acc (totalSteps m)) 0

/-- Inner loop of the writing pass (lines 77-79): at one global step, each
mote whose trajectory still has a sample at that index emits one line with
elapsed time `step * time_step`. -/
def emitStep (trajs : List Traj) (step : ℕ) : List PosSample :=
  trajs.filterMap (fun t =>
    if step < t.xFull.length then
      some ⟨t.moteId, (step : ℚ) * t.timeStep, t.xFull.getD step 0,
        t.yFull.getD step 0⟩
    else none)

/-- Timeline merge (lines 76-80): the global step counter runs over
`range(2 * max_steps)`. -/
def mergeTrace (firstIndex : ℕ) (motes : List MobileMote) : List PosSample :=
  (List.range (2 * maxStepsOf motes)).flatMap
    (emitStep (buildTrajectories firstIndex motes))

/-- Spec-side allocation formula of claim C2, stated with `round` where the
source uses `int` truncation; defined only to compare the claim's words
against the source allocation `segSteps`. -/
def segStepsSpecRound (segDist totalDist : ℚ) (steps : ℕ) : ℕ :=
  let proportion : ℚ := if 0 < totalDist then segDist / totalDist else 1
  max 1 (round (proportion * (steps : ℚ))).toNat

/-! Concrete inputs used by the claim-level theorems, counterexamples and
witnesses below. -/

/-- Scenario candidate Y of the spec's ranking scenario. -/
def candY : Candidate := ⟨0, 0, 0, ⟨4, 4, 60⟩⟩

/-- Scenario candidate W. -/
def candW : Candidate := ⟨1, 0, 0, ⟨3, 8, 55⟩⟩

/-- Scenario candidate X. -/
def candX : Candidate := ⟨2, 0, 0, ⟨5, 5, 50⟩⟩

/-- Scenario candidate Z. -/
def candZ : Candidate := ⟨3, 0, 0, ⟨10, 10, 10⟩⟩

/-- Duplicate-id pair, first member: dominates `dupB`, same id 5. -/
def dupA : Candidate := ⟨5, 0, 0, ⟨1, 1, 10⟩⟩

/-- Duplicate-id pair, second member: dominated by `dupA`, same id 5. -/
def dupB : Candidate := ⟨5, 1, 0, ⟨2, 2, 5⟩⟩

/-- Candidate for the C1 counterexample, id 0: dominates both `cexB` and
`cexB2`. -/
def cexA : Candidate := ⟨0, 0, 0, ⟨1, 1, 100⟩⟩

/-- Candidate for the C1 counterexample, first carrier of id 1. -/
def cexB : Candidate := ⟨1, 0, 0, ⟨5, 5, 5⟩⟩

/-- Candidate for the C1 counterexample, second carrier of id 1; it is lost
by the ranking. -/
def cexB2 : Candidate := ⟨1, 0, 0, ⟨6, 6, 4⟩⟩

/-- Horizontal segment sweeping x from 0 to a: samples of x(t) = a*t, y(t) =
0 on the two-point grid; its polyline arc length is a (for a ≥ 0). -/
def hseg (a : ℚ) : List ℚ × List ℚ :=
  ([0, a], [0, 0])

/-- Counterexample mote for C2: segments of arc length 4 and 1, step budget
13; truncation gives 10 + 2 = 12 forward samples, the round formula 10 + 3. -/
def c2Mote : MobileMote :=
  ⟨[hseg 4, hseg 1], [4, 1], 5 / 13, 1, false⟩

/-- Counterexample mote for C3: three unit segments traversed at speed 3
with time step 1, so the step budget is 1 while the forward sample count is
3; its third sample is never emitted by the timeline merge. -/
def c3Mote : MobileMote :=
  ⟨[hseg 1, hseg 1, hseg 1], [1, 1, 1], 3, 1, false⟩

/-- Witness mote: one unit horizontal segment, speed 1, time step 1,
round trip set. -/
def wMote : MobileMote := ⟨[hseg 1], [1], 1, 1, true⟩

/-- Elements appended to `next_front` by a run of the decrement loop over the
stream `Q` starting from counters `n`: an element is appended exactly when its
counter hits zero at its decrement. -/
def emit (n : ℕ → ℤ) : List Candidate → List Candidate
  | [] => []
  | q :: Q =>
    (if n q.id - 1 = 0 then [q] else []) ++
      emit (Function.update n q.id (n q.id - 1)) Q

/-- Number of members of `l` that dominate `r` and do not share its id: the
quantity tracked by the `n` dictionary. -/
def domCountIn (l : List Candidate) (r : Candidate) : ℕ :=
  l.countP (fun q =>
    decide (q.id ≠ r.id) && dominates q.objectives r.objectives)

/-- Erasure of the metadata fields that the ranking never reads. -/
def strip (c : Candidate) : Candidate := ⟨c.id, 0, 0, c.objectives⟩

/-- Witness population for origin-agnosticism, variant A. -/
def w9popA : List Candidate := [⟨0, 0, -1, ⟨1, 2, 3⟩⟩, ⟨1, 1, 4, ⟨2, 1, 3⟩⟩]

/-- Witness population for origin-agnosticism, variant B: identical to
`w9popA` except in the origin and generation fields. -/
def w9popB : List Candidate := [⟨0, 1, 7, ⟨1, 2, 3⟩⟩, ⟨1, 0, 0, ⟨2, 1, 3⟩⟩]

/-! Helper lemmas for evaluating the trajectory pipeline. -/

theorem linspace01_length (n : ℕ) : (linspace01 n).length = n := by
  match n with
  | 0 => rfl
  | 1 => rfl
  | n + 2 => rw [linspace01, List.length_map, List.length_range]

theorem resample_length (vals : List ℚ) (steps : ℕ) :
    (resample vals steps).length = steps := by
  simp [resample, linspace01_length]

theorem pyInt_natCast (k : ℕ) : pyInt (k : ℚ) = (k : ℤ) := by
  rw [pyInt, if_pos (by positivity)]
  exact_mod_cast Int.floor_natCast k

theorem totalSteps_eval {m : MobileMote} {k : ℕ}
    (h : totalDistance m / m.speed / m.timeStep = (k : ℚ)) :
    totalSteps m = max 1 k := by
  rw [totalSteps, h, pyInt_natCast, Int.toNat_natCast]

theorem segSteps_pos_eval {d t : ℚ} {T : ℕ} {k : ℕ}
    (ht : 0 < t) (h0 : 0 ≤ d / t) (h : ⌊d / t * (T : ℚ)⌋ = (k : ℤ)) :
    segSteps d t T = max 1 k := by
  rw [segSteps]
  simp only [if_pos ht]
  rw [pyInt, if_pos (mul_nonneg h0 (by positivity)), h, Int.toNat_natCast]

theorem forwardXY_fst_length (m : MobileMote) :
    (forwardXY m).1.length =
      ((m.segSamples.zip m.segDists).map
        (fun p => segSteps p.2 (totalDistance m) (totalSteps m))).sum := by
  simp only [forwardXY, List.length_flatMap, Function.comp_def, resample_length]

/-! Basic properties of the dominance relation. -/

theorem dominates_irrefl (a : Objectives) : dominates a a = false := by
  simp [dominates, lt_irrefl]

theorem dominates_asymm {a b : Objectives} (h : dominates a b = true) :
    dominates b a = false := by
  by_contra hba
  rw [Bool.not_eq_false] at hba
  simp only [dominates, Bool.and_eq_true, Bool.or_eq_true, decide_eq_true_eq]
    at h hba
  obtain ⟨⟨⟨hl, he⟩, ht⟩, hs⟩ := h
  obtain ⟨⟨⟨hl', he'⟩, ht'⟩, hs'⟩ := hba
  rcases hs with (h1 | h1) | h1 <;> linarith

theorem dominates_trans {a b c : Objectives} (hab : dominates a b = true)
    (hbc : dominates b c = true) : dominates a c = true := by
  simp only [dominates, Bool.and_eq_true, Bool.or_eq_true, decide_eq_true_eq]
    at hab hbc ⊢
  obtain ⟨⟨⟨hl, he⟩, ht⟩, hs⟩ := hab
  obtain ⟨⟨⟨hl', he'⟩, ht'⟩, hs'⟩ := hbc
  refine ⟨⟨⟨le_trans hl hl', le_trans he he'⟩, le_trans ht' ht⟩, ?_⟩
  rcases hs with (h1 | h1) | h1
  · exact Or.inl (Or.inl (lt_of_lt_of_le h1 hl'))
  · exact Or.inl (Or.inr (lt_of_lt_of_le h1 he'))
  · exact Or.inr (lt_of_le_of_lt ht' h1)

/-! Uniqueness helpers for populations with pairwise-distinct ids. -/

theorem eq_of_mem_of_id_eq {pop : List Candidate}
    (hnd : (pop.map Candidate.id).Nodup) :
    ∀ {p q : Candidate}, p ∈ pop → q ∈ pop → p.id = q.id → p = q := by
  induction pop with
  | nil => intro p q hp _ _; cases hp
  | cons a t ih =>
    intro p q hp hq hid
    rw [List.map_cons, List.nodup_cons] at hnd
    rcases List.mem_cons.1 hp with rfl | hp' <;>
      rcases List.mem_cons.1 hq with rfl | hq'
    · rfl
    · exact absurd (hid ▸ List.mem_map_of_mem Candidate.id hq') hnd.1
    · exact absurd (hid ▸ List.mem_map_of_mem Candidate.id hp') hnd.1
    · exact ih hnd.2 hp' hq' hid

theorem find?_id_eq_of_nodup {l : List Candidate}
    (hnd : (l.map Candidate.id).Nodup) {p : Candidate} (hp : p ∈ l) :
    l.find? (fun q => q.id == p.id) = some p := by
  induction l with
  | nil => cases hp
  | cons a t ih =>
    rw [List.map_cons, List.nodup_cons] at hnd
    rcases List.mem_cons.1 hp with rfl | hp'
    · rw [List.find?_cons_of_pos _ (by simp)]
    · have hne : a.id ≠ p.id := fun h =>
        hnd.1 (h ▸ List.mem_map_of_mem Candidate.id hp')
      rw [List.find?_cons_of_neg _ (by simp [hne]), ih hnd.2 hp']

theorem countP_id_and_of_nodup {pop : List Candidate}
    (hnd : (pop.map Candidate.id).Nodup) {r : Candidate} (hr : r ∈ pop)
    (f : Candidate → Bool) :
    pop.countP (fun q => (q.id == r.id) && f q) = if f r then 1 else 0 := by
  induction pop with
  | nil => cases hr
  | cons a t ih =>
    rw [List.map_cons, List.nodup_cons] at hnd
    rw [List.countP_cons]
    rcases List.mem_cons.1 hr with rfl | hr'
    · have h0 : t.countP (fun q => (q.id == r.id) && f q) = 0 := by
        rw [List.countP_eq_zero]
        intro q hq hfq
        rw [Bool.and_eq_true, beq_iff_eq] at hfq
        exact hnd.1 (hfq.1 ▸ List.mem_map_of_mem Candidate.id hq)
      rw [h0]
      simp
    · have hne : a.id ≠ r.id := by
        intro h
        have : r.id ∈ t.map Candidate.id := List.mem_map_of_mem Candidate.id hr'
        exact hnd.1 (h ▸ this)
      rw [ih hnd.2 hr']
      simp [hne]

theorem sum_map_ite_eq_countP {α : Type} (l : List α) (p : α → Bool) :
    (l.map (fun a => if p a then 1 else 0)).sum = l.countP p := by
  induction l with
  | nil => rfl
  | cons a t ih =>
    rw [List.map_cons, List.sum_cons, List.countP_cons, ih]
    cases h : p a <;> simp [h, Nat.add_comm]

/-! Characterization of the first pass `phase1`. -/

theorem phase1_foldl_front0 (population : List Candidate) :
    ∀ (l : List Candidate) (st : SortState),
      (l.foldl (phase1Step population) st).front0 =
        st.front0 ++ l.filter (fun p => innerN population p == 0) := by
  intro l
  induction l with
  | nil => intro st; simp
  | cons p t ih =>
    intro st
    rw [List.foldl_cons, ih, List.filter_cons]
    by_cases h : innerN population p = 0
    · simp [phase1Step, h]
    · simp [phase1Step, h]

theorem phase1_front0 (population : List Candidate) :
    (phase1 population).front0 =
      population.filter (fun p => innerN population p == 0) := by
  rw [phase1, phase1_foldl_front0]
  rfl

theorem phase1_foldl_S (population : List Candidate) :
    ∀ (l : List Candidate) (st : SortState) (k : ℕ),
      (l.foldl (phase1Step population) st).S k =
        match l.reverse.find? (fun p => p.id == k) with
        | some p => innerS population p
        | none => st.S k := by
  intro l
  induction l with
  | nil => intro st k; rfl
  | cons p t ih =>
    intro st k
    rw [List.foldl_cons, ih, List.reverse_cons, List.find?_append]
    cases hf : t.reverse.find? (fun q => q.id == k) with
    | some q => simp [hf]
    | none =>
      by_cases hk : p.id = k
      · have hb : (p.id == k) = true := by simp [hk]
        simp [hf, List.find?, hb, phase1Step, Function.update, hk]
      · have hb : (p.id == k) = false := by simp [hk]
        simp [hf, List.find?, hb, phase1Step, Function.update, hk]
        intro h
        exact absurd h.symm hk

theorem phase1_foldl_n (population : List Candidate) :
    ∀ (l : List Candidate) (st : SortState) (k : ℕ),
      (l.foldl (phase1Step population) st).n k =
        match l.reverse.find? (fun p => p.id == k) with
        | some p => ((innerN population p : ℤ))
        | none => st.n k := by
  intro l
  induction l with
  | nil => intro st k; rfl
  | cons p t ih =>
    intro st k
    rw [List.foldl_cons, ih, List.reverse_cons, List.find?_append]
    cases hf : t.reverse.find? (fun q => q.id == k) with
    | some q => simp [hf]
    | none =>
      by_cases hk : p.id = k
      · have hb : (p.id == k) = true := by simp [hk]
        simp [hf, List.find?, hb, phase1Step, Function.update, hk]
      · have hb : (p.id == k) = false := by simp [hk]
        simp [hf, List.find?, hb, phase1Step, Function.update, hk]
        intro h
        exact absurd h.symm hk

theorem phase1_S_of_nodup {population : List Candidate}
    (hnd : (population.map Candidate.id).Nodup) {p : Candidate}
    (hp : p ∈ population) :
    (phase1 population).S p.id = innerS population p := by
  rw [phase1, phase1_foldl_S]
  have hrev : (population.reverse.map Candidate.id).Nodup := by
    rw [List.map_reverse, List.nodup_reverse]
    exact hnd
  rw [find?_id_eq_of_nodup hrev (List.mem_reverse.2 hp)]

theorem phase1_n_of_nodup {population : List Candidate}
    (hnd : (population.map Candidate.id).Nodup) {p : Candidate}
    (hp : p ∈ population) :
    (phase1 population).n p.id = ((innerN population p : ℤ)) := by
  rw [phase1, phase1_foldl_n]
  have hrev : (population.reverse.map Candidate.id).Nodup := by
    rw [List.map_reverse, List.nodup_reverse]
    exact hnd
  rw [find?_id_eq_of_nodup hrev (List.mem_reverse.2 hp)]

/-! Characterization of the second pass: the decrement loop. -/

theorem processQ_pair (n : ℕ → ℤ) (acc : List Candidate) (q : Candidate) :
    processQ (n, acc) q =
      (Function.update n q.id (n q.id - 1),
        acc ++ (if n q.id - 1 = 0 then [q] else [])) := by
  rw [processQ]
  by_cases h : n q.id - 1 = 0 <;> simp [h]

theorem foldl_processQ_fst (Q : List Candidate) :
    ∀ (n : ℕ → ℤ) (acc : List Candidate) (k : ℕ),
      ((Q.foldl processQ (n, acc)).1) k =
        n k - (Q.countP (fun q => q.id == k) : ℤ) := by
  induction Q with
  | nil => intro n acc k; simp
  | cons q Q ih =>
    intro n acc k
    rw [List.foldl_cons, processQ_pair, ih, List.countP_cons]
    by_cases hk : k = q.id
    · subst hk
      rw [Function.update_same]
      simp only [beq_self_eq_true, if_pos]
      push_cast
      ring
    · rw [Function.update_noteq hk]
      have hb : (q.id == k) = false := by
        rw [beq_eq_false_iff_ne]
        exact fun h => hk h.symm
      rw [hb]
      simp

theorem foldl_processQ_snd (Q : List Candidate) :
    ∀ (n : ℕ → ℤ) (acc : List Candidate),
      (Q.foldl processQ (n, acc)).2 = acc ++ emit n Q := by
  induction Q with
  | nil => intro n acc; simp [emit]
  | cons q Q ih =>
    intro n acc
    rw [List.foldl_cons, processQ_pair, ih, emit, List.append_assoc]

theorem mem_of_mem_emit :
    ∀ (Q : List Candidate) (n : ℕ → ℤ) {r : Candidate}, r ∈ emit n Q → r ∈ Q := by
  intro Q
  induction Q with
  | nil => intro n r h; cases h
  | cons q Q ih =>
    intro n r h
    rw [emit] at h
    rcases List.mem_append.1 h with h1 | h2
    · by_cases hc : n q.id - 1 = 0
      · rw [if_pos hc] at h1
        rw [List.mem_singleton.1 h1]
        exact List.mem_cons_self q Q
      · rw [if_neg hc] at h1
        cases h1
    · exact List.mem_cons_of_mem _ (ih _ h2)

theorem countP_emit (k : ℕ) :
    ∀ (Q : List Candidate) (n : ℕ → ℤ),
      (((emit n Q).countP (fun q => q.id == k) : ℕ) : ℤ) =
        if 1 ≤ n k ∧ n k ≤ (Q.countP (fun q => q.id == k) : ℤ) then 1 else 0 := by
  intro Q
  induction Q with
  | nil =>
    intro n
    rw [emit]
    simp only [List.countP_nil, Nat.cast_zero]
    split_ifs with h
    · omega
    · rfl
  | cons q Q ih =>
    intro n
    rw [emit, List.countP_append, List.countP_cons, Nat.cast_add, ih]
    by_cases hk : q.id = k
    · subst hk
      rw [Function.update_same]
      have hpre : (List.countP (fun x => x.id == q.id)
          (if n q.id - 1 = 0 then [q] else [])) =
            if n q.id - 1 = 0 then 1 else 0 := by
        by_cases hc : n q.id - 1 = 0 <;> simp [hc]
      rw [hpre]
      simp only [beq_self_eq_true, if_true]
      push_cast
      split_ifs <;> omega
    · rw [Function.update_noteq (fun h => hk h.symm)]
      have hb : (q.id == k) = false := by
        rw [beq_eq_false_iff_ne]
        exact hk
      have hpre : (List.countP (fun x => x.id == k)
          (if n q.id - 1 = 0 then [q] else [])) = 0 := by
        by_cases hc : n q.id - 1 = 0 <;> simp [hc, hb]
      rw [hpre, hb]
      push_cast
      split_ifs <;> omega

/-! Dominator counting. -/

theorem innerN_eq_domCountIn (l : List Candidate) (r : Candidate) :
    innerN l r = domCountIn l r := by
  rw [innerN, domCountIn, ← List.countP_eq_length_filter]
  apply List.countP_congr
  intro q _
  simp only [Bool.and_eq_true, decide_eq_true_eq, Bool.not_eq_true']
  constructor
  · rintro ⟨⟨hne, _⟩, hd⟩
    exact ⟨fun h => hne h.symm, hd⟩
  · rintro ⟨hne, hd⟩
    exact ⟨⟨fun h => hne h.symm, dominates_asymm hd⟩, hd⟩

theorem exists_min_image {α : Type} (l : List α) (f : α → ℕ) (hne : l ≠ []) :
    ∃ a ∈ l, ∀ b ∈ l, f a ≤ f b := by
  induction l with
  | nil => exact absurd rfl hne
  | cons x t ih =>
    cases t with
    | nil =>
      refine ⟨x, List.mem_singleton_self x, ?_⟩
      intro b hb
      rw [List.mem_singleton.1 hb]
    | cons y u =>
      obtain ⟨a, ha, hmin⟩ := ih (by simp)
      by_cases h : f x ≤ f a
      · refine ⟨x, List.mem_cons_self _ _, ?_⟩
        intro b hb
        rcases List.mem_cons.1 hb with rfl | hb'
        · exact le_rfl
        · exact le_trans h (hmin b hb')
      · refine ⟨a, List.mem_cons_of_mem _ ha, ?_⟩
        intro b hb
        rcases List.mem_cons.1 hb with rfl | hb'
        · omega
        · exact hmin b hb'

theorem remaining_empty_of_all_dominated
    {R : List Candidate} (hndR : (R.map Candidate.id).Nodup)
    (h : ∀ r ∈ R, 0 < domCountIn R r) : R = [] := by
  by_contra hne
  obtain ⟨r, hrR, hmin⟩ := exists_min_image R (fun x => domCountIn R x) hne
  obtain ⟨q, hqR, hq⟩ := List.countP_pos_iff.1 (h r hrR)
  rw [Bool.and_eq_true, decide_eq_true_eq] at hq
  obtain ⟨hne', hdom⟩ := hq
  have himp : ∀ x ∈ R,
      (decide (x.id ≠ q.id) && dominates x.objectives q.objectives) = true →
      (decide (x.id ≠ r.id) && dominates x.objectives r.objectives) = true := by
    intro x hxR hx
    rw [Bool.and_eq_true, decide_eq_true_eq] at hx
    rw [Bool.and_eq_true, decide_eq_true_eq]
    have hdxr : dominates x.objectives r.objectives = true :=
      dominates_trans hx.2 hdom
    refine ⟨?_, hdxr⟩
    intro hid
    have hxr : x = r := eq_of_mem_of_id_eq hndR hxR hrR hid
    rw [hxr] at hx
    have := dominates_asymm hx.2
    rw [this] at hdom
    cases hdom
  have hlt : domCountIn R q < domCountIn R r := by
    obtain ⟨s, t, hst⟩ := List.append_of_mem hqR
    have hsub : ∀ x ∈ s, x ∈ R := by
      intro x hx
      rw [hst]
      exact List.mem_append_left _ hx
    have htub : ∀ x ∈ t, x ∈ R := by
      intro x hx
      rw [hst]
      exact List.mem_append_right _ (List.mem_cons_of_mem _ hx)
    rw [domCountIn, domCountIn, hst, List.countP_append, List.countP_append,
      List.countP_cons, List.countP_cons]
    have hs : s.countP (fun x =>
        decide (x.id ≠ q.id) && dominates x.objectives q.objectives) ≤
        s.countP (fun x =>
          decide (x.id ≠ r.id) && dominates x.objectives r.objectives) :=
      List.countP_mono_left (fun x hx => himp x (hsub x hx))
    have ht : t.countP (fun x =>
        decide (x.id ≠ q.id) && dominates x.objectives q.objectives) ≤
        t.countP (fun x =>
          decide (x.id ≠ r.id) && dominates x.objectives r.objectives) :=
      List.countP_mono_left (fun x hx => himp x (htub x hx))
    have hq0 : (decide (q.id ≠ q.id) && dominates q.objectives q.objectives)
        = false := by simp
    have hq1 : (decide (q.id ≠ r.id) && dominates q.objectives r.objectives)
        = true := by
      rw [Bool.and_eq_true, decide_eq_true_eq]
      exact ⟨hne', hdom⟩
    rw [hq0, hq1]
    have e0 : (if (false = true) then 1 else 0) = (0 : ℕ) := by simp
    have e1 : (if (true = true) then 1 else 0) = (1 : ℕ) := by simp
    rw [e0, e1]
    omega
  have := hmin q hqR
  omega

/-! Supporting facts about the flattened decrement stream. -/

theorem processFront_eq_foldl_flatten (S : ℕ → List Candidate) (n : ℕ → ℤ)
    (front : List Candidate) :
    processFront S n front =
      ((front.map (fun x => S x.id)).flatten).foldl processQ (n, []) := by
  rw [processFront, List.foldl_flatten, List.foldl_map]

theorem countQ_flatten_eq {pop : List Candidate}
    (hnd : (pop.map Candidate.id).Nodup) (S : ℕ → List Candidate)
    (HS : ∀ p ∈ pop, S p.id = innerS pop p) (front : List Candidate)
    (hf : ∀ x ∈ front, x ∈ pop) {r : Candidate} (hr : r ∈ pop) :
    ((front.map (fun x => S x.id)).flatten).countP (fun q => q.id == r.id) =
      domCountIn front r := by
  rw [List.countP_flatten, List.map_map]
  have hmc : front.map (List.countP (fun q => q.id == r.id) ∘ fun x => S x.id)
      = front.map (fun x =>
        if decide (x.id ≠ r.id) && dominates x.objectives r.objectives
          then 1 else 0) := by
    apply List.map_congr_left
    intro x hx
    have hxpop := hf x hx
    rw [Function.comp_apply, HS x hxpop, innerS, List.countP_filter,
      countP_id_and_of_nodup hnd hr]
  rw [hmc, sum_map_ite_eq_countP, domCountIn]

theorem mem_flattenS_mem_pop {pop : List Candidate} (S : ℕ → List Candidate)
    (HS : ∀ p ∈ pop, S p.id = innerS pop p) (front : List Candidate)
    (hf : ∀ x ∈ front, x ∈ pop) :
    ∀ x ∈ (front.map (fun p => S p.id)).flatten, x ∈ pop := by
  intro x hx
  obtain ⟨l, hl, hxl⟩ := List.mem_flatten.1 hx
  obtain ⟨p, hp, rfl⟩ := List.mem_map.1 hl
  rw [HS p (hf p hp), innerS] at hxl
  exact List.mem_of_mem_filter hxl

theorem emit_map_id_nodup (n : ℕ → ℤ) (Q : List Candidate) :
    ((emit n Q).map Candidate.id).Nodup := by
  rw [List.nodup_iff_count_le_one]
  intro a
  rw [List.count_eq_countP, List.countP_map]
  have h := countP_emit a Q n
  have hconv : ((fun x => x == a) ∘ Candidate.id) =
      (fun q : Candidate => q.id == a) := rfl
  rw [hconv]
  split_ifs at h <;> omega

theorem perm_append_filter_not_mem {α : Type} [DecidableEq α]
    {s l : List α} (hsnd : s.Nodup) (hlnd : l.Nodup)
    (hsub : ∀ x ∈ s, x ∈ l) :
    (s ++ l.filter (fun x => !(decide (x ∈ s)))).Perm l := by
  rw [List.perm_iff_count]
  intro c
  rw [List.count_append]
  by_cases hc : c ∈ s
  · have h1le : s.count c ≤ 1 := List.nodup_iff_count_le_one.1 hsnd c
    have h1ge : 0 < s.count c := List.count_pos_iff.2 hc
    have h2 : (l.filter (fun x => !(decide (x ∈ s)))).count c = 0 := by
      rw [List.count_eq_zero]
      intro hmem
      have hp := List.of_mem_filter hmem
      simp only [Bool.not_eq_true', decide_eq_false_iff_not] at hp
      exact hp hc
    have h3le : l.count c ≤ 1 := List.nodup_iff_count_le_one.1 hlnd c
    have h3ge : 0 < l.count c := List.count_pos_iff.2 (hsub c hc)
    omega
  · have h1 : s.count c = 0 := List.count_eq_zero.2 hc
    have h2 : (l.filter (fun x => !(decide (x ∈ s)))).count c = l.count c :=
      List.count_filter (by simp [hc])
    omega

/-! The partition property of the front loop, for populations whose
candidates carry pairwise-distinct ids. -/

theorem sortLoop_flatten_perm
    {pop : List Candidate} (hnd : (pop.map Candidate.id).Nodup)
    (S : ℕ → List Candidate)
    (HS : ∀ p ∈ pop, S p.id = innerS pop p) :
    ∀ (fuel : ℕ) (n : ℕ → ℤ) (front R : List Candidate),
      (∀ x ∈ front, x ∈ pop) →
      (∀ x ∈ R, x ∈ pop) →
      ((front ++ R).map Candidate.id).Nodup →
      (∀ r ∈ R, n r.id = (domCountIn (front ++ R) r : ℤ)) →
      (∀ r ∈ R, (0:ℤ) < n r.id) →
      (∀ q ∈ pop, q.id ∉ R.map Candidate.id → n q.id ≤ 0) →
      front.length + R.length < fuel →
      ((sortLoop S fuel n front).flatten).Perm (front ++ R) := by
  intro fuel
  induction fuel with
  | zero =>
    intro n front R _ _ _ _ _ _ hfuel
    omega
  | succ f ih =>
    intro n front R hfmem hRmem hndFR hcount hpos hzero hfuel
    cases front with
    | nil =>
      have hndR : (R.map Candidate.id).Nodup := by simpa using hndFR
      have hR : R = [] := by
        apply remaining_empty_of_all_dominated hndR
        intro r hr
        have h2 := hpos r hr
        rw [hcount r hr] at h2
        simp only [List.nil_append] at h2
        exact_mod_cast h2
      subst hR
      simp [sortLoop]
    | cons p fr =>
      have hn1 : ∀ k, (processFront S n (p :: fr)).1 k =
          n k - (((((p :: fr).map (fun x => S x.id)).flatten).countP
            (fun q => q.id == k) : ℕ) : ℤ) := by
        intro k
        rw [processFront_eq_foldl_flatten, foldl_processQ_fst]
      have hn2 : (processFront S n (p :: fr)).2 =
          emit n (((p :: fr).map (fun x => S x.id)).flatten) := by
        rw [processFront_eq_foldl_flatten, foldl_processQ_snd, List.nil_append]
      set Q := ((p :: fr).map (fun x => S x.id)).flatten with hQdef
      set next := emit n Q with hnextdef
      set R' := R.filter (fun x => !(decide (x ∈ next))) with hRdef
      have hQpop : ∀ x ∈ Q, x ∈ pop := mem_flattenS_mem_pop S HS _ hfmem
      have hcountQ : ∀ r ∈ pop,
          Q.countP (fun q => q.id == r.id) = domCountIn (p :: fr) r := by
        intro r hr
        exact countQ_flatten_eq hnd S HS _ hfmem hr
      have hsplit : ∀ r ∈ R,
          n r.id = (domCountIn (p :: fr) r : ℤ) + (domCountIn R r : ℤ) := by
        intro r hr
        rw [hcount r hr]
        rw [show domCountIn ((p :: fr) ++ R) r =
            domCountIn (p :: fr) r + domCountIn R r from by
          rw [domCountIn, domCountIn, domCountIn, List.countP_append]]
        push_cast
        ring
      have hmemnext : ∀ x ∈ next, x ∈ R ∧ domCountIn R x = 0 := by
        intro x hx
        have hxQ : x ∈ Q := mem_of_mem_emit Q n hx
        have hxpop : x ∈ pop := hQpop x hxQ
        have hposx : 0 < next.countP (fun q => q.id == x.id) :=
          List.countP_pos_iff.2 ⟨x, hx, by simp⟩
        have hce := countP_emit x.id Q n
        rw [← hnextdef] at hce
        have hcond : 1 ≤ n x.id ∧
            n x.id ≤ (Q.countP (fun q => q.id == x.id) : ℤ) := by
          by_contra hcon
          rw [if_neg hcon] at hce
          omega
        have hxid : x.id ∈ R.map Candidate.id := by
          by_contra hxid
          have := hzero x hxpop hxid
          omega
        obtain ⟨r, hrR, hrid⟩ := List.mem_map.1 hxid
        have hxr : x = r :=
          eq_of_mem_of_id_eq hnd hxpop (hRmem r hrR) hrid.symm
        subst hxr
        refine ⟨hrR, ?_⟩
        have hsp := hsplit x hrR
        rw [hcountQ x hxpop] at hcond
        omega
      have hnextR : ∀ r ∈ R, domCountIn R r = 0 → r ∈ next := by
        intro r hr hdr
        have hrpop := hRmem r hr
        have hce := countP_emit r.id Q n
        rw [← hnextdef] at hce
        have hcond : 1 ≤ n r.id ∧
            n r.id ≤ (Q.countP (fun q => q.id == r.id) : ℤ) := by
          constructor
          · have := hpos r hr
            omega
          · rw [hcountQ r hrpop, hsplit r hr, hdr]
            push_cast
            omega
        rw [if_pos hcond] at hce
        have hposr : 0 < next.countP (fun q => q.id == r.id) := by omega
        obtain ⟨x, hxnext, hxid⟩ := List.countP_pos_iff.1 hposr
        rw [beq_iff_eq] at hxid
        have hxR : x ∈ R := (hmemnext x hxnext).1
        have hxr : x = r := eq_of_mem_of_id_eq hnd (hRmem x hxR) hrpop hxid
        rw [← hxr]
        exact hxnext
      have hndR : (R.map Candidate.id).Nodup := by
        rw [List.map_append] at hndFR
        exact (List.nodup_append.1 hndFR).2.1
      have hRnd : R.Nodup := List.Nodup.of_map _ hndR
      have hnextnd : next.Nodup := List.Nodup.of_map _ (emit_map_id_nodup n Q)
      have hnextsub : ∀ x ∈ next, x ∈ R := fun x hx => (hmemnext x hx).1
      have hperm : (next ++ R').Perm R :=
        perm_append_filter_not_mem hnextnd hRnd hnextsub
      have hR'mem : ∀ x ∈ R', x ∈ pop := fun x hx =>
        hRmem x (List.mem_of_mem_filter hx)
      have hndNR : ((next ++ R').map Candidate.id).Nodup :=
        ((hperm.map Candidate.id).nodup_iff).2 hndR
      have hdomR' : ∀ r, domCountIn (next ++ R') r = domCountIn R r := by
        intro r
        rw [domCountIn, domCountIn]
        exact hperm.countP_eq _
      have hn'count : ∀ r ∈ R',
          (processFront S n (p :: fr)).1 r.id =
            (domCountIn (next ++ R') r : ℤ) := by
        intro r hr
        have hrR : r ∈ R := List.mem_of_mem_filter hr
        have hrpop := hRmem r hrR
        rw [hn1, hcountQ r hrpop, hdomR', hsplit r hrR]
        ring
      have hn'pos : ∀ r ∈ R',
          (0:ℤ) < (processFront S n (p :: fr)).1 r.id := by
        intro r hr
        have hrR : r ∈ R := List.mem_of_mem_filter hr
        have hnotnext : r ∉ next := by
          have hp := List.of_mem_filter hr
          simp only [Bool.not_eq_true', decide_eq_false_iff_not] at hp
          exact hp
        have hdr : domCountIn R r ≠ 0 := fun h => hnotnext (hnextR r hrR h)
        rw [hn'count r hr, hdomR']
        exact_mod_cast Nat.pos_of_ne_zero hdr
      have hn'zero : ∀ q ∈ pop, q.id ∉ R'.map Candidate.id →
          (processFront S n (p :: fr)).1 q.id ≤ 0 := by
        intro q hq hqid
        rw [hn1]
        by_cases hqR : q.id ∈ R.map Candidate.id
        · obtain ⟨r, hrR, hrid⟩ := List.mem_map.1 hqR
          have hqr : q = r := eq_of_mem_of_id_eq hnd hq (hRmem r hrR) hrid.symm
          subst hqr
          have hqR' : q ∉ R' := fun h => hqid (List.mem_map_of_mem _ h)
          have hqnext : q ∈ next := by
            by_contra hqn
            apply hqR'
            rw [hRdef]
            refine List.mem_filter.2 ⟨hrR, ?_⟩
            simp [hqn]
          have hdq : domCountIn R q = 0 := (hmemnext q hqnext).2
          rw [hcountQ q hq, hsplit q hrR, hdq]
          push_cast
          omega
        · have h0 := hzero q hq hqR
          omega
      have hfuel' : next.length + R'.length < f := by
        have hlen := hperm.length_eq
        rw [List.length_append] at hlen
        simp only [List.length_cons] at hfuel
        omega
      have hrec := ih (processFront S n (p :: fr)).1 next R'
        (fun x hx => hRmem x (hnextsub x hx))
        hR'mem hndNR hn'count hn'pos hn'zero hfuel'
      rw [sortLoop]
      simp only [List.isEmpty_cons, Bool.false_eq_true, if_false]
      rw [hn2, List.flatten_cons]
      exact ((List.Perm.append_left (p :: fr) hrec).trans
        (List.Perm.append_left (p :: fr) hperm))

theorem fast_nondominated_sort_flatten_perm
    {population : List Candidate}
    (hnd : (population.map Candidate.id).Nodup) :
    ((fast_nondominated_sort population).flatten).Perm population := by
  have HS : ∀ p ∈ population,
      (phase1 population).S p.id = innerS population p :=
    fun p hp => phase1_S_of_nodup hnd hp
  set pred0 : Candidate → Bool := fun p => innerN population p == 0 with hpred0
  have hpermFR : (population.filter pred0 ++
      population.filter (fun x => !pred0 x)).Perm population :=
    List.filter_append_perm pred0 population
  have hfmem : ∀ x ∈ population.filter pred0, x ∈ population :=
    fun x hx => List.mem_of_mem_filter hx
  have hRmem : ∀ x ∈ population.filter (fun x => !pred0 x), x ∈ population :=
    fun x hx => List.mem_of_mem_filter hx
  have hndFR : ((population.filter pred0 ++
      population.filter (fun x => !pred0 x)).map Candidate.id).Nodup :=
    ((hpermFR.map Candidate.id).nodup_iff).2 hnd
  have hcount : ∀ r ∈ population.filter (fun x => !pred0 x),
      (phase1 population).n r.id =
        (domCountIn (population.filter pred0 ++
          population.filter (fun x => !pred0 x)) r : ℤ) := by
    intro r hr
    have hrpop := List.mem_of_mem_filter hr
    rw [phase1_n_of_nodup hnd hrpop, innerN_eq_domCountIn]
    norm_cast
    rw [domCountIn, domCountIn]
    exact (hpermFR.countP_eq _).symm
  have hpos : ∀ r ∈ population.filter (fun x => !pred0 x),
      (0:ℤ) < (phase1 population).n r.id := by
    intro r hr
    have hrpop := List.mem_of_mem_filter hr
    have hp := List.of_mem_filter hr
    simp only [hpred0, Bool.not_eq_true', beq_eq_false_iff_ne, ne_eq] at hp
    rw [phase1_n_of_nodup hnd hrpop]
    exact_mod_cast Nat.pos_of_ne_zero hp
  have hzero : ∀ q ∈ population,
      q.id ∉ (population.filter (fun x => !pred0 x)).map Candidate.id →
      (phase1 population).n q.id ≤ 0 := by
    intro q hq hqid
    have hqFR : q ∈ population.filter pred0 ++
        population.filter (fun x => !pred0 x) := hpermFR.mem_iff.2 hq
    rcases List.mem_append.1 hqFR with h0 | hR
    · have hp := List.of_mem_filter h0
      simp only [hpred0, beq_iff_eq] at hp
      rw [phase1_n_of_nodup hnd hq, hp]
      simp
    · exact absurd (List.mem_map_of_mem _ hR) hqid
  have hfuel : (population.filter pred0).length +
      (population.filter (fun x => !pred0 x)).length <
      population.length + 2 := by
    have := hpermFR.length_eq
    rw [List.length_append] at this
    omega
  have hmain := sortLoop_flatten_perm hnd (phase1 population).S HS
    (population.length + 2) (phase1 population).n
    (population.filter pred0) (population.filter (fun x => !pred0 x))
    hfmem hRmem hndFR hcount hpos hzero hfuel
  have hfront0 : (phase1 population).front0 = population.filter pred0 :=
    phase1_front0 population
  show ((sortLoop (phase1 population).S (population.length + 2)
      (phase1 population).n (phase1 population).front0).flatten).Perm
    population
  rw [hfront0]
  exact hmain.trans hpermFR

theorem fast_nondominated_sort_getD_zero (population : List Candidate) :
    (fast_nondominated_sort population).getD 0 [] =
      (phase1 population).front0 := by
  show (sortLoop (phase1 population).S (population.length + 2)
      (phase1 population).n (phase1 population).front0).getD 0 [] = _
  cases hfe : (phase1 population).front0 with
  | nil =>
    rw [sortLoop]
    simp
  | cons p fr =>
    rw [sortLoop]
    simp

theorem mem_front0_iff {population : List Candidate} {p : Candidate} :
    p ∈ (phase1 population).front0 ↔
      p ∈ population ∧ innerN population p = 0 := by
  rw [phase1_front0, List.mem_filter]
  simp only [beq_iff_eq]

/-! Origin-agnosticism: the whole ranking commutes with erasing the metadata
fields `origin` and `generation`. -/

theorem innerS_strip (population : List Candidate) (p : Candidate) :
    innerS (population.map strip) (strip p) = (innerS population p).map strip := by
  rw [innerS, innerS, List.filter_map]
  rfl

theorem innerN_strip (population : List Candidate) (p : Candidate) :
    innerN (population.map strip) (strip p) = innerN population p := by
  rw [innerN, innerN, ← List.countP_eq_length_filter,
    ← List.countP_eq_length_filter, List.countP_map]
  rfl

theorem phase1Step_strip (population : List Candidate) (st : SortState)
    (p : Candidate) :
    phase1Step (population.map strip)
        ⟨fun k => (st.S k).map strip, st.n, st.front0.map strip⟩ (strip p) =
      ⟨fun k => ((phase1Step population st p).S k).map strip,
        (phase1Step population st p).n,
        ((phase1Step population st p).front0).map strip⟩ := by
  have hid : (strip p).id = p.id := rfl
  rw [phase1Step, phase1Step, innerS_strip, innerN_strip, hid]
  dsimp only
  congr 1
  · funext k
    by_cases hk : k = p.id
    · subst hk
      rw [Function.update_same, Function.update_same]
    · rw [Function.update_noteq hk, Function.update_noteq hk]
  · by_cases h : innerN population p = 0
    · simp [h]
    · simp [h]

theorem phase1_foldl_strip (population : List Candidate) :
    ∀ (l : List Candidate) (st : SortState),
      (l.map strip).foldl (phase1Step (population.map strip))
          ⟨fun k => (st.S k).map strip, st.n, st.front0.map strip⟩ =
        ⟨fun k => ((l.foldl (phase1Step population) st).S k).map strip,
          (l.foldl (phase1Step population) st).n,
          ((l.foldl (phase1Step population) st).front0).map strip⟩ := by
  intro l
  induction l with
  | nil => intro st; rfl
  | cons p t ih =>
    intro st
    rw [List.map_cons, List.foldl_cons, List.foldl_cons, phase1Step_strip]
    exact ih (phase1Step population st p)

theorem phase1_strip (population : List Candidate) :
    phase1 (population.map strip) =
      ⟨fun k => ((phase1 population).S k).map strip,
        (phase1 population).n,
        ((phase1 population).front0).map strip⟩ := by
  rw [phase1, phase1]
  exact phase1_foldl_strip population population ⟨fun _ => [], fun _ => 0, []⟩

theorem emit_map_strip : ∀ (Q : List Candidate) (n : ℕ → ℤ),
    emit n (Q.map strip) = (emit n Q).map strip := by
  intro Q
  induction Q with
  | nil => intro n; rfl
  | cons q t ih =>
    intro n
    rw [List.map_cons, emit, emit]
    have hid : (strip q).id = q.id := rfl
    rw [hid, ih, List.map_append]
    congr 1
    by_cases h : n q.id - 1 = 0 <;> simp [h]

theorem processFront_strip (S : ℕ → List Candidate) (n : ℕ → ℤ)
    (front : List Candidate) :
    (processFront (fun k => (S k).map strip) n (front.map strip)).1 =
        (processFront S n front).1 ∧
      (processFront (fun k => (S k).map strip) n (front.map strip)).2 =
        ((processFront S n front).2).map strip := by
  have hQ : ((front.map strip).map
      (fun x => (fun k => (S k).map strip) x.id)).flatten =
        ((front.map (fun x => S x.id)).flatten).map strip := by
    rw [List.map_map, List.map_flatten, List.map_map]
    rfl
  constructor
  · funext k
    rw [processFront_eq_foldl_flatten, processFront_eq_foldl_flatten,
      foldl_processQ_fst, foldl_processQ_fst, hQ, List.countP_map]
    rfl
  · rw [processFront_eq_foldl_flatten, processFront_eq_foldl_flatten,
      foldl_processQ_snd, foldl_processQ_snd, List.nil_append,
      List.nil_append, hQ, emit_map_strip]

theorem sortLoop_strip (S : ℕ → List Candidate) :
    ∀ (fuel : ℕ) (n : ℕ → ℤ) (front : List Candidate),
      sortLoop (fun k => (S k).map strip) fuel n (front.map strip) =
        (sortLoop S fuel n front).map (List.map strip) := by
  intro fuel
  induction fuel with
  | zero => intro n front; rfl
  | succ f ih =>
    intro n front
    rw [sortLoop, sortLoop]
    cases front with
    | nil => simp
    | cons p fr =>
      simp only [List.map_cons, List.isEmpty_cons, Bool.false_eq_true,
        if_false]
      obtain ⟨h1, h2⟩ := processFront_strip S n (p :: fr)
      rw [List.map_cons] at h1 h2
      rw [h1, h2, ih]

theorem fast_nondominated_sort_strip (population : List Candidate) :
    fast_nondominated_sort (population.map strip) =
      (fast_nondominated_sort population).map (List.map strip) := by
  show sortLoop (phase1 (population.map strip)).S
      ((population.map strip).length + 2) (phase1 (population.map strip)).n
      (phase1 (population.map strip)).front0 = _
  rw [phase1_strip, List.length_map]
  exact sortLoop_strip (phase1 population).S (population.length + 2)
    (phase1 population).n (phase1 population).front0

/-! Membership preservation: every candidate placed in a front is a member of
the input population, carried through unmodified. -/

theorem phase1_S_mem (population : List Candidate) (k : ℕ) :
    ∀ x ∈ (phase1 population).S k, x ∈ population := by
  rw [phase1, phase1_foldl_S]
  cases hf : population.reverse.find? (fun p => p.id == k) with
  | some p =>
    intro x hx
    simp only [innerS] at hx
    exact List.mem_of_mem_filter hx
  | none =>
    intro x hx
    exact absurd hx (List.not_mem_nil x)

theorem mem_sortLoop_mem (S : ℕ → List Candidate)
    (population : List Candidate)
    (hS : ∀ k, ∀ x ∈ S k, x ∈ population) :
    ∀ (fuel : ℕ) (n : ℕ → ℤ) (front : List Candidate),
      (∀ x ∈ front, x ∈ population) →
      ∀ f ∈ sortLoop S fuel n front, ∀ c ∈ f, c ∈ population := by
  intro fuel
  induction fuel with
  | zero =>
    intro n front _ f hf
    exact absurd hf (List.not_mem_nil f)
  | succ fl ih =>
    intro n front hfront f hf
    rw [sortLoop] at hf
    cases front with
    | nil => simp at hf
    | cons p fr =>
      simp only [List.isEmpty_cons, Bool.false_eq_true, if_false] at hf
      rcases List.mem_cons.1 hf with rfl | hf'
      · exact hfront
      · refine ih (processFront S n (p :: fr)).1
          (processFront S n (p :: fr)).2 ?_ f hf'
        intro x hx
        rw [processFront_eq_foldl_flatten, foldl_processQ_snd,
          List.nil_append] at hx
        have hxQ := mem_of_mem_emit _ _ hx
        obtain ⟨l, hl, hxl⟩ := List.mem_flatten.1 hxQ
        obtain ⟨p', _, rfl⟩ := List.mem_map.1 hl
        exact hS _ x hxl

theorem fast_nondominated_sort_mem {population : List Candidate} :
    ∀ f ∈ fast_nondominated_sort population, ∀ c ∈ f, c ∈ population := by
  show ∀ f ∈ sortLoop (phase1 population).S (population.length + 2)
      (phase1 population).n (phase1 population).front0, ∀ c ∈ f,
      c ∈ population
  apply mem_sortLoop_mem (phase1 population).S population
    (phase1_S_mem population)
  intro x hx
  rw [phase1_front0] at hx
  exact List.mem_of_mem_filter hx

/-! Helper lemmas on the timeline merge and the round-trip doubling. -/

theorem append_reverse_length (xs : List ℚ) :
    (xs ++ xs.reverse).length = 2 * xs.length := by
  simp [two_mul]

theorem append_reverse_mirror (xs : List ℚ) {i : ℕ} (h : i < xs.length) :
    (xs ++ xs.reverse).getD (2 * xs.length - 1 - i) 0 =
      (xs ++ xs.reverse).getD i 0 := by
  have h1 : xs.length ≤ 2 * xs.length - 1 - i := by omega
  rw [List.getD_append_right _ _ _ _ h1,
    show 2 * xs.length - 1 - i - xs.length = xs.length - 1 - i from by omega,
    List.getD_eq_getElem?_getD,
    List.getElem?_reverse (by omega : xs.length - 1 - i < xs.length),
    show xs.length - 1 - (xs.length - 1 - i) = i from by omega,
    ← List.getD_eq_getElem?_getD, List.getD_append _ _ _ _ h]

theorem maxStepsOf_foldl_init_le :
    ∀ (l : List MobileMote) (a : ℕ),
      a ≤ l.foldl (fun acc m => max acc (totalSteps m)) a := by
  intro l
  induction l with
  | nil => intro a; exact le_rfl
  | cons m ms ih =>
    intro a
    exact le_trans (le_max_left a (totalSteps m)) (ih (max a (totalSteps m)))

theorem totalSteps_le_foldl :
    ∀ (l : List MobileMote) (a : ℕ) (m : MobileMote), m ∈ l →
      totalSteps m ≤ l.foldl (fun acc x => max acc (totalSteps x)) a := by
  intro l
  induction l with
  | nil => intro a m hm; cases hm
  | cons m0 ms ih =>
    intro a m hm
    rcases List.mem_cons.1 hm with rfl | hm'
    · exact le_trans (le_max_right a (totalSteps m))
        (maxStepsOf_foldl_init_le ms _)
    · exact ih _ m hm'

theorem totalSteps_le_maxStepsOf {motes : List MobileMote} {m : MobileMote}
    (hm : m ∈ motes) : totalSteps m ≤ maxStepsOf motes :=
  totalSteps_le_foldl motes 0 m hm

theorem foldl_max_attained :
    ∀ (l : List MobileMote) (a : ℕ),
      l.foldl (fun acc x => max acc (totalSteps x)) a = a ∨
      ∃ m ∈ l, l.foldl (fun acc x => max acc (totalSteps x)) a =
        totalSteps m := by
  intro l
  induction l with
  | nil => intro a; exact Or.inl rfl
  | cons m0 ms ih =>
    intro a
    rcases ih (max a (totalSteps m0)) with h | ⟨m', hm', he⟩
    · by_cases hc : totalSteps m0 ≤ a
      · left
        rw [List.foldl_cons, h, max_eq_left hc]
      · right
        refine ⟨m0, List.mem_cons_self _ _, ?_⟩
        rw [List.foldl_cons, h, max_eq_right (le_of_not_le hc)]
    · right
      exact ⟨m', List.mem_cons_of_mem _ hm', he⟩

theorem one_le_totalSteps (m : MobileMote) : 1 ≤ totalSteps m := by
  rw [totalSteps]
  exact le_max_left _ _

theorem maxStepsOf_attained {motes : List MobileMote} (h : motes ≠ []) :
    ∃ m ∈ motes, maxStepsOf motes = totalSteps m := by
  rcases foldl_max_attained motes 0 with h0 | h1
  · cases motes with
    | nil => exact absurd rfl h
    | cons m ms =>
      have hle := totalSteps_le_foldl (m :: ms) 0 m (List.mem_cons_self m ms)
      rw [maxStepsOf, h0] at *
      have h1m := one_le_totalSteps m
      omega
  · exact h1

theorem filter_emitStep_lt (step mid : ℕ) :
    ∀ (motes : List MobileMote) (idx : ℕ), mid < idx →
      (emitStep (buildTrajectories idx motes) step).filter
        (fun s => s.moteId == mid) = [] := by
  intro motes
  induction motes with
  | nil => intro idx _; rfl
  | cons m0 ms ih =>
    intro idx hlt
    rw [buildTrajectories, emitStep, List.filterMap_cons]
    have hne : (idx == mid) = false := by
      rw [beq_eq_false_iff_ne]
      omega
    by_cases hc : step < (trajXY m0).1.length
    · simp only [hc, if_pos]
      rw [List.filter_cons]
      simp only [hne, Bool.false_eq_true, if_false]
      exact ih (idx + 1) (by omega)
    · simp only [hc, if_neg, if_false]
      exact ih (idx + 1) (by omega)

theorem filter_emitStep (step : ℕ) :
    ∀ (motes : List MobileMote) (idx i : ℕ) (m : MobileMote),
      motes[i]? = some m →
      (emitStep (buildTrajectories idx motes) step).filter
          (fun s => s.moteId == idx + i) =
        (if step < (trajXY m).1.length then
          [⟨idx + i, (step : ℚ) * m.timeStep, (trajXY m).1.getD step 0,
            (trajXY m).2.getD step 0⟩]
        else []) := by
  intro motes
  induction motes with
  | nil =>
    intro idx i m hm
    rw [List.getElem?_nil] at hm
    cases hm
  | cons m0 ms ih =>
    intro idx i m hm
    rw [buildTrajectories, emitStep, List.filterMap_cons]
    cases i with
    | zero =>
      rw [List.getElem?_cons_zero] at hm
      injection hm with hm'
      subst hm'
      have htail := filter_emitStep_lt step idx ms (idx + 1) (by omega)
      rw [emitStep] at htail
      rw [Nat.add_zero]
      by_cases hc : step < (trajXY m0).1.length
      · rw [if_pos hc, if_pos hc]
        dsimp only
        rw [List.filter_cons]
        simp only [beq_self_eq_true, if_pos]
        rw [htail]
      · rw [if_neg hc, if_neg hc]
        dsimp only
        exact htail
    | succ j =>
      rw [List.getElem?_cons_succ] at hm
      have htail := ih (idx + 1) j m hm
      rw [emitStep] at htail
      have hidx : idx + 1 + j = idx + (j + 1) := by omega
      rw [hidx] at htail
      have hne : (idx == idx + (j + 1)) = false := by
        rw [beq_eq_false_iff_ne]
        omega
      by_cases hc : step < (trajXY m0).1.length
      · rw [if_pos hc]
        dsimp only
        rw [List.filter_cons]
        simp only [hne, Bool.false_eq_true, if_false]
        exact htail
      · rw [if_neg hc]
        dsimp only
        exact htail

theorem range_flatMap_if {α : Type} (L : ℕ) (g : ℕ → α) :
    ∀ N : ℕ, (List.range N).flatMap (fun s => if s < L then [g s] else []) =
      (List.range (min N L)).map g := by
  intro N
  induction N with
  | zero => simp
  | succ N ih =>
    rw [List.range_succ, List.flatMap_append, ih]
    by_cases hc : N < L
    · have hm1 : min N L = N := by omega
      have hm2 : min (N + 1) L = N + 1 := by omega
      rw [hm1, hm2, List.range_succ, List.map_append]
      simp [hc]
    · have hm1 : min N L = L := by omega
      have hm2 : min (N + 1) L = L := by omega
      rw [hm1, hm2]
      simp [hc]

theorem mergeTrace_filter {motes : List MobileMote} {i : ℕ}
    {m : MobileMote} (firstIndex : ℕ) (hm : motes[i]? = some m) :
    (mergeTrace firstIndex motes).filter
        (fun s => s.moteId == firstIndex + i) =
      (List.range (min (2 * maxStepsOf motes) (trajXY m).1.length)).map
        (fun step => ⟨firstIndex + i, (step : ℚ) * m.timeStep,
          (trajXY m).1.getD step 0, (trajXY m).2.getD step 0⟩) := by
  rw [mergeTrace, List.filter_flatMap]
  have hblocks : ∀ step : ℕ,
      (emitStep (buildTrajectories firstIndex motes) step).filter
          (fun s => s.moteId == firstIndex + i) =
        (if step < (trajXY m).1.length then
          [⟨firstIndex + i, (step : ℚ) * m.timeStep,
            (trajXY m).1.getD step 0, (trajXY m).2.getD step 0⟩]
        else []) := fun step => filter_emitStep step motes firstIndex i m hm
  have hfun : (fun step =>
      (emitStep (buildTrajectories firstIndex motes) step).filter
        (fun s => s.moteId == firstIndex + i)) =
      (fun step => (if step < (trajXY m).1.length then
        [(⟨firstIndex + i, (step : ℚ) * m.timeStep,
          (trajXY m).1.getD step 0, (trajXY m).2.getD step 0⟩ : PosSample)]
      else [])) := funext hblocks
  rw [hfun, range_flatMap_if]

/-! Facts for the objective reductions. -/

theorem nodeDelta_getD_nonneg (cells : List Cell) :
    0 ≤ (nodeDelta cells).getD 0 := by
  rw [nodeDelta]
  cases groupFirst cells with
  | none => simp
  | some s =>
    cases groupLast cells with
    | none => simp
    | some e =>
      simp only [Option.getD_some]
      exact le_max_right _ _

theorem sum_last_minus_first_eq (rows : List MeasurementRow) :
    sum_last_minus_first true rows =
      some ((((sortRows rows).map (·.node)).dedup).map (fun k =>
        (nodeDelta (((sortRows rows).filter (fun r => r.node == k)).map
          (·.value))).getD 0)).sum := rfl

theorem segSteps_zero_dist (d : ℚ) (T : ℕ) : segSteps d 0 T = max 1 T := by
  rw [segSteps]
  simp only [lt_irrefl, if_false]
  rw [one_mul, pyInt_natCast, Int.toNat_natCast]

/-! Claim-level theorems. -/

/-- Claim C8: on the spec's concrete four-candidate population Y, W, X, Z
(distinct ids), `fast_nondominated_sort` returns exactly the three fronts
Front 0 = [Y, W], Front 1 = [X], Front 2 = [Z]. -/
theorem C8_scenario_fronts :
    fast_nondominated_sort [candY, candW, candX, candZ] =
      [[candY, candW], [candX], [candZ]] := by decide

/-- Claim C10: with two distinct candidates `dupA`, `dupB` carrying the same
id, the dominance comparison between them is skipped as a self-comparison and
both bookkeeping dictionaries hold a single entry for the shared id (here the
final, overwritten values `0` and `[]`, recording no domination), so the
dominated `dupB` is placed in front 0 even though `dupA` dominates it. -/
theorem C10_duplicate_id_skip :
    dominates dupA.objectives dupB.objectives = true ∧
    dupA ≠ dupB ∧
    dupA.id = dupB.id ∧
    fast_nondominated_sort [dupA, dupB] = [[dupA, dupB]] ∧
    (phase1 [dupA, dupB]).n dupA.id = 0 ∧
    (phase1 [dupA, dupB]).S dupA.id = [] := by decide

/-- Claim C1, counterexample: on the population [cexA, cexB, cexB2], where
cexB and cexB2 share an id, the concatenation of the returned fronts has two
candidates while the population has three (cexB2 is omitted and never gets a
rank), so the partition property fails for populations with duplicate ids. -/
theorem C1_counterexample :
    (fast_nondominated_sort [cexA, cexB, cexB2]).flatten.length = 2 ∧
    ([cexA, cexB, cexB2] : List Candidate).length = 3 ∧
    ¬ ((fast_nondominated_sort [cexA, cexB, cexB2]).flatten.Perm
      [cexA, cexB, cexB2]) := by decide

/-- Claim C1 (amended): for any population whose candidates carry
pairwise-distinct ids, the concatenation of the fronts returned by
`fast_nondominated_sort` is a permutation of the input population, so every
candidate is placed in exactly one front and receives exactly one rank (the
front index, a non-negative integer), with no duplicates and no omissions. -/
theorem C1_rank_partition (population : List Candidate)
    (hnd : (population.map Candidate.id).Nodup) :
    ((fast_nondominated_sort population).flatten).Perm population :=
  fast_nondominated_sort_flatten_perm hnd

/-- Witness for the amended claim C1 at the concrete four-candidate
population of the spec scenario. -/
theorem C1_rank_partition_witness :
    (([candY, candW, candX, candZ].map Candidate.id).Nodup) ∧
    ((fast_nondominated_sort [candY, candW, candX, candZ]).flatten).Perm
      [candY, candW, candX, candZ] :=
  ⟨by decide, C1_rank_partition [candY, candW, candX, candZ] (by decide)⟩

/-- Claim C5, counterexample: the same-id pair `dupA`, `dupB` are two
distinct candidates that both land in front 0 although `dupA` dominates
`dupB`, so front-0 antisymmetry fails for populations with duplicate ids. -/
theorem C5_counterexample :
    dupA ∈ (fast_nondominated_sort [dupA, dupB]).getD 0 [] ∧
    dupB ∈ (fast_nondominated_sort [dupA, dupB]).getD 0 [] ∧
    dupA ≠ dupB ∧
    dominates dupA.objectives dupB.objectives = true := by decide

/-- Claim C5 (amended): for any population whose candidates carry
pairwise-distinct ids, no candidate in front 0 dominates another candidate in
front 0. -/
theorem C5_front0_antisymm (population : List Candidate)
    (hnd : (population.map Candidate.id).Nodup) {p q : Candidate}
    (hp : p ∈ (fast_nondominated_sort population).getD 0 [])
    (hq : q ∈ (fast_nondominated_sort population).getD 0 [])
    (hpq : p ≠ q) :
    dominates p.objectives q.objectives = false := by
  rw [fast_nondominated_sort_getD_zero] at hp hq
  have hp' := mem_front0_iff.1 hp
  have hq' := mem_front0_iff.1 hq
  by_contra hdom
  rw [Bool.not_eq_false] at hdom
  have hidne : p.id ≠ q.id := fun h =>
    hpq (eq_of_mem_of_id_eq hnd hp'.1 hq'.1 h)
  have h0 : innerN population q = 0 := hq'.2
  rw [innerN_eq_domCountIn, domCountIn, List.countP_eq_zero] at h0
  refine absurd ?_ (h0 p hp'.1)
  rw [Bool.and_eq_true, decide_eq_true_eq]
  exact ⟨hidne, hdom⟩

/-- Witness for the amended claim C5: the mutually non-dominated pair Y, W of
the spec scenario both sit in front 0 and indeed do not dominate each
other. -/
theorem C5_front0_antisymm_witness :
    (([candY, candW].map Candidate.id).Nodup ∧
      candY ∈ (fast_nondominated_sort [candY, candW]).getD 0 [] ∧
      candW ∈ (fast_nondominated_sort [candY, candW]).getD 0 [] ∧
      candY ≠ candW) ∧
    dominates candY.objectives candW.objectives = false :=
  ⟨⟨by decide, by decide, by decide, by decide⟩,
    C5_front0_antisymm [candY, candW] (by decide) (by decide) (by decide)
      (by decide)⟩

/-- Claim C9: ranking is origin-agnostic.  Any two populations that agree up
to the metadata fields origin and generation (that is, agree after `strip`)
produce the same front partition by candidate id, and every candidate placed
in a front is a member of the input population, its origin and generation
fields carried through unchanged. -/
theorem C9_origin_agnostic (pop1 pop2 : List Candidate)
    (h : pop1.map strip = pop2.map strip) :
    (fast_nondominated_sort pop1).map (List.map Candidate.id) =
      (fast_nondominated_sort pop2).map (List.map Candidate.id) ∧
    (∀ f ∈ fast_nondominated_sort pop1, ∀ c ∈ f, c ∈ pop1) ∧
    (∀ f ∈ fast_nondominated_sort pop2, ∀ c ∈ f, c ∈ pop2) := by
  refine ⟨?_, fast_nondominated_sort_mem, fast_nondominated_sort_mem⟩
  have heq : (fast_nondominated_sort pop1).map (List.map strip) =
      (fast_nondominated_sort pop2).map (List.map strip) := by
    rw [← fast_nondominated_sort_strip, ← fast_nondominated_sort_strip, h]
  have hcomp : ∀ (L : List (List Candidate)),
      (L.map (List.map strip)).map (List.map Candidate.id) =
        L.map (List.map Candidate.id) := by
    intro L
    rw [List.map_map]
    congr 1
    funext l
    rw [Function.comp_apply, List.map_map]
    rfl
  calc (fast_nondominated_sort pop1).map (List.map Candidate.id)
      = ((fast_nondominated_sort pop1).map (List.map strip)).map
          (List.map Candidate.id) := (hcomp _).symm
    _ = ((fast_nondominated_sort pop2).map (List.map strip)).map
          (List.map Candidate.id) := by rw [heq]
    _ = (fast_nondominated_sort pop2).map (List.map Candidate.id) := hcomp _

/-- Witness for claim C9 at two concrete two-candidate populations that
differ only in origin and generation. -/
theorem C9_origin_agnostic_witness :
    (w9popA.map strip = w9popB.map strip) ∧
    (fast_nondominated_sort w9popA).map (List.map Candidate.id) =
      (fast_nondominated_sort w9popB).map (List.map Candidate.id) :=
  ⟨by decide, (C9_origin_agnostic w9popA w9popB (by decide)).1⟩

/-- Claim C4, counterexample: when the designated energy column is absent,
`sum_all` reports NaN (modelled `none`), not the sum 0 of all-zero
contributions that the claim asserts. -/
theorem C4_counterexample : sum_all none ≠ some 0 := by decide

/-- Claim C4 (amended): when the designated energy column is absent the
energy objective is NaN (`none`), not a fatal error and not 0; when the
column is present, unparseable and null values contribute zero to the sum
(dropping them leaves the result unchanged) and the result is never NaN. -/
theorem C4_energy_missing_column (cells : List Cell) :
    sum_all none = none ∧
    sum_all (some (Cell.text :: cells)) = sum_all (some cells) ∧
    sum_all (some (Cell.null :: cells)) = sum_all (some cells) ∧
    sum_all (some cells) ≠ none := by
  refine ⟨rfl, rfl, rfl, ?_⟩
  rw [sum_all]
  exact fun h => Option.noConfusion h

/-- Claim C7: with the counter column present, every per-node contribution of
`sum_last_minus_first` is clamped to be non-negative, the total is defined
(never NaN) and non-negative, and the spec's decreasing-counter scenario
node=1,t=0,c=5 then node=1,t=1,c=3 yields total throughput 0, not -2. -/
theorem C7_throughput_nonneg :
    (∀ cells : List Cell, 0 ≤ (nodeDelta cells).getD 0) ∧
    (∀ rows : List MeasurementRow,
      sum_last_minus_first true rows ≠ none ∧
      0 ≤ (sum_last_minus_first true rows).getD 0) ∧
    sum_last_minus_first true
      [⟨1, 0, Cell.num 5⟩, ⟨1, 1, Cell.num 3⟩] = some 0 := by
  refine ⟨nodeDelta_getD_nonneg, ?_, ?_⟩
  · intro rows
    rw [sum_last_minus_first_eq]
    refine ⟨fun h => Option.noConfusion h, ?_⟩
    rw [Option.getD_some]
    apply List.sum_nonneg
    intro x hx
    obtain ⟨k, _, rfl⟩ := List.mem_map.1 hx
    exact nodeDelta_getD_nonneg _
  · show some (max ((3:ℚ) - 5) 0 + 0) = some 0
    norm_num

theorem segStepsSpecRound_pos_eval {d t : ℚ} {T : ℕ} {k : ℕ}
    (ht : 0 < t) (h : round (d / t * (T : ℚ)) = (k : ℤ)) :
    segStepsSpecRound d t T = max 1 k := by
  rw [segStepsSpecRound]
  simp only [if_pos ht]
  rw [h, Int.toNat_natCast]

/-- Claim C2, counterexample: on the two-segment mote `c2Mote` (arc lengths 4
and 1, step budget 13) the source allocates 10 + 2 = 12 forward samples by
truncation, while the claim's rounding formula would allocate 10 + 3 = 13, so
the allocation is not `max(1, round(total_steps * seg_dist / total_dist))`. -/
theorem C2_counterexample :
    (forwardXY c2Mote).1.length ≠
      ((c2Mote.segSamples.zip c2Mote.segDists).map
        (fun p => segStepsSpecRound p.2 (totalDistance c2Mote)
          (totalSteps c2Mote))).sum := by
  have h1 : totalDistance c2Mote = 5 := by norm_num [totalDistance, c2Mote]
  have h2 : totalSteps c2Mote = 13 := by
    rw [totalSteps_eval (k := 13) (by norm_num [totalDistance, c2Mote])]
    omega
  have hL : (forwardXY c2Mote).1.length = 12 := by
    rw [forwardXY_fst_length, h1, h2]
    show segSteps 4 5 13 + (segSteps 1 5 13 + 0) = 12
    rw [segSteps_pos_eval (k := 10) (by norm_num) (by norm_num) (by norm_num),
      segSteps_pos_eval (k := 2) (by norm_num) (by norm_num) (by norm_num)]
    omega
  have hR : ((c2Mote.segSamples.zip c2Mote.segDists).map
      (fun p => segStepsSpecRound p.2 (totalDistance c2Mote)
        (totalSteps c2Mote))).sum = 13 := by
    show segStepsSpecRound 4 (totalDistance c2Mote) (totalSteps c2Mote) +
      (segStepsSpecRound 1 (totalDistance c2Mote) (totalSteps c2Mote) + 0) =
        13
    rw [h1, h2,
      segStepsSpecRound_pos_eval (k := 10) (by norm_num)
        (by rw [round_eq]; norm_num),
      segStepsSpecRound_pos_eval (k := 3) (by norm_num)
        (by rw [round_eq]; norm_num)]
    omega
  rw [hL, hR]
  omega

/-- Claim C2 (amended): each motion segment receives exactly
`segSteps = max(1, int(total_steps * seg_dist / total_dist))` resample points
(truncation toward zero, not rounding): resampling yields exactly the
allocated number of points, the forward trajectory length is the sum of the
per-segment allocations, and when the total arc length is zero the proportion
defaults to 1 so the allocation is the full step budget and no division error
occurs. -/
theorem C2_step_allocation :
    (∀ (vals : List ℚ) (steps : ℕ), (resample vals steps).length = steps) ∧
    (∀ m : MobileMote, (forwardXY m).1.length =
      ((m.segSamples.zip m.segDists).map
        (fun p => segSteps p.2 (totalDistance m) (totalSteps m))).sum) ∧
    (∀ (d : ℚ) (T : ℕ), segSteps d 0 T = max 1 T) ∧
    (∀ (d : ℚ) (m : MobileMote), segSteps d 0 (totalSteps m) = totalSteps m) :=
  ⟨resample_length, forwardXY_fst_length, segSteps_zero_dist,
    fun d m => by
      rw [segSteps_zero_dist]
      exact max_eq_right (one_le_totalSteps m)⟩

/-- Claim C3, counterexample: on the three-segment mote `c3Mote`, `max_steps`
is the step budget 1 while the forward sample count is 3, and the timeline
merge emits only `2 * max_steps = 2` of the node's 3 trajectory samples, so
`max_steps` is not the maximum forward sample count and samples are left
unemitted. -/
theorem C3_counterexample :
    maxStepsOf [c3Mote] ≠ (forwardXY c3Mote).1.length ∧
    ((mergeTrace 4 [c3Mote]).filter (fun s => s.moteId == 4 + 0)).length <
      (trajXY c3Mote).1.length := by
  have h1 : totalDistance c3Mote = 3 := by norm_num [totalDistance, c3Mote]
  have h2 : totalSteps c3Mote = 1 := by
    rw [totalSteps_eval (k := 1) (by norm_num [totalDistance, c3Mote])]
    omega
  have hM : maxStepsOf [c3Mote] = 1 := by
    show max 0 (totalSteps c3Mote) = 1
    rw [h2]
    omega
  have hF : (forwardXY c3Mote).1.length = 3 := by
    rw [forwardXY_fst_length, h1, h2]
    show segSteps 1 3 1 + (segSteps 1 3 1 + (segSteps 1 3 1 + 0)) = 3
    rw [segSteps_pos_eval (k := 0) (by norm_num) (by norm_num) (by norm_num)]
    omega
  have hT : (trajXY c3Mote).1 = (forwardXY c3Mote).1 := by
    rw [trajXY]
    rfl
  constructor
  · rw [hM, hF]
    omega
  · rw [@mergeTrace_filter [c3Mote] 0 c3Mote 4 rfl,
      List.length_map, List.length_range, hT, hM, hF]
    omega

/-- Claim C3 (amended): `max_steps` is the maximum step budget `total_steps`
over the mobile nodes (which can be smaller than a node's forward sample
count), and the merged trace restricted to one node is exactly the prefix of
its trajectory of length `min(2 * max_steps, trajectory length)`, one sample
per global step with elapsed time `step * time_step`; samples at indices at
or beyond `2 * max_steps` are never emitted. -/
theorem C3_timeline_merge :
    (∀ (motes : List MobileMote) (m : MobileMote), m ∈ motes →
      totalSteps m ≤ maxStepsOf motes) ∧
    (∀ motes : List MobileMote, motes ≠ [] →
      ∃ m ∈ motes, maxStepsOf motes = totalSteps m) ∧
    (∀ (firstIndex i : ℕ) (motes : List MobileMote) (m : MobileMote),
      motes[i]? = some m →
      (mergeTrace firstIndex motes).filter
          (fun s => s.moteId == firstIndex + i) =
        (List.range (min (2 * maxStepsOf motes) (trajXY m).1.length)).map
          (fun step => ⟨firstIndex + i, (step : ℚ) * m.timeStep,
            (trajXY m).1.getD step 0, (trajXY m).2.getD step 0⟩)) :=
  ⟨fun _ _ hm => totalSteps_le_maxStepsOf hm,
    fun _ hne => maxStepsOf_attained hne,
    fun firstIndex _ _ _ hm => mergeTrace_filter firstIndex hm⟩

/-- Witness for the amended claim C3 at the single-mote list `[wMote]`. -/
theorem C3_timeline_merge_witness :
    (([wMote] : List MobileMote)[0]? = some wMote) ∧
    (mergeTrace 4 [wMote]).filter (fun s => s.moteId == 4 + 0) =
      (List.range (min (2 * maxStepsOf [wMote]) (trajXY wMote).1.length)).map
        (fun step => ⟨4 + 0, (step : ℚ) * wMote.timeStep,
          (trajXY wMote).1.getD step 0, (trajXY wMote).2.getD step 0⟩) :=
  ⟨rfl, C3_timeline_merge.2.2 4 0 [wMote] wMote rfl⟩

/-- Claim C6: when the round-trip flag is set, the synthesized trajectory has
exactly twice the forward sample count and mirrors its positions: for every
index i in the forward half, both coordinates at index length - 1 - i equal
those at index i.  Elapsed time is not part of the trajectory arrays; it is
attached monotonically at emission as `step * time_step`. -/
theorem C6_round_trip (m : MobileMote) (h : m.isRoundTrip = true) :
    (trajXY m).1.length = 2 * (forwardXY m).1.length ∧
    (trajXY m).2.length = 2 * (forwardXY m).2.length ∧
    (∀ i, i < (forwardXY m).1.length →
      (trajXY m).1.getD ((trajXY m).1.length - 1 - i) 0 =
        (trajXY m).1.getD i 0) ∧
    (∀ i, i < (forwardXY m).2.length →
      (trajXY m).2.getD ((trajXY m).2.length - 1 - i) 0 =
        (trajXY m).2.getD i 0) := by
  have ht1 : (trajXY m).1 = (forwardXY m).1 ++ (forwardXY m).1.reverse := by
    rw [trajXY]
    simp [h]
  have ht2 : (trajXY m).2 = (forwardXY m).2 ++ (forwardXY m).2.reverse := by
    rw [trajXY]
    simp [h]
  refine ⟨by rw [ht1, append_reverse_length], by rw [ht2, append_reverse_length],
    ?_, ?_⟩
  · intro i hi
    rw [ht1, append_reverse_length]
    exact append_reverse_mirror _ hi
  · intro i hi
    rw [ht2, append_reverse_length]
    exact append_reverse_mirror _ hi

/-- Witness for claim C6 at the round-trip mote `wMote`. -/
theorem C6_round_trip_witness :
    (wMote.isRoundTrip = true) ∧
    (trajXY wMote).1.length = 2 * (forwardXY wMote).1.length ∧
    (trajXY wMote).1.getD ((trajXY wMote).1.length - 1 - 0) 0 =
      (trajXY wMote).1.getD 0 0 := by
  have h := C6_round_trip wMote rfl
  have hl : (forwardXY wMote).1.length = 1 := by
    rw [forwardXY_fst_length]
    show segSteps 1 (totalDistance wMote) (totalSteps wMote) + 0 = 1
    have h1 : totalDistance wMote = 1 := by norm_num [totalDistance, wMote]
    have h2 : totalSteps wMote = 1 := by
      rw [totalSteps_eval (k := 1) (by norm_num [totalDistance, wMote])]
      omega
    rw [h1, h2,
      segSteps_pos_eval (k := 1) (by norm_num) (by norm_num) (by norm_num)]
    omega
  exact ⟨rfl, h.1, h.2.2.1 0 (by omega)⟩
